import Mathlib

/-!
Verification development for the beam-analysis tool (src/app.py).

The script is a straight-line pipeline over numpy arrays: sample positions
`x = np.linspace(0, L, npts)`, support reactions `R1, R2`, shear `V`,
moment `M = cumtrapz(V, x, initial=0)`, a double integration of `M/(E*I)`
with a linear boundary correction producing the deflection `y`, and scalar
extrema scans over `y`.  We embed it shallowly over `ℚ` (exact arithmetic):
sequences are functions `ℕ → ℚ` of the sample index, numpy arrays that are
scanned (`np.min`, `np.max`, `np.argmax`) are materialised as `List ℚ`.
-/

namespace Beam

/-- Load cases offered by the sidebar (src/app.py lines 25-41): a point load
`P` at distance `a`, with an optional second point load `P2` at `a2`
(when the checkbox is off the script sets `P2 = 0.0` and `a2 = None`,
modelled as `a2 = none`); or a uniformly distributed load of intensity `w`. -/
inductive LoadCase where
  | point (P a P2 : ℚ) (a2 : Option ℚ)
  | udl (w : ℚ)
deriving DecidableEq

/-- The scalar inputs of one run of the script: beam length `L`, Young's
modulus `E` (already converted to Pa), second moment of area `I`, the
plot resolution `npts`, and the load case (src/app.py lines 19-44). -/
structure LoadConfig where
  L : ℚ
  E : ℚ
  I : ℚ
  npts : ℕ
  loads : LoadCase
deriving DecidableEq

/-- Sample positions `x = np.linspace(0, L, npts)` (src/app.py line 50):
for `npts ≥ 2`, `x i = L * i / (npts - 1)`. -/
def x (cfg : LoadConfig) (i : ℕ) : ℚ :=
  cfg.L * i / ((cfg.npts - 1 : ℕ) : ℚ)

/-- Cumulative trapezoidal integration with `initial = 0.0`
(`scipy.integrate.cumtrapz(f, x, initial=0.0)`, used at src/app.py
lines 80, 86, 93 and 95), as a function of the sample index:
`out 0 = 0`, `out (i+1) = out i + (f i + f (i+1))/2 * (g (i+1) - g i)`. -/
def cumtrapz (f g : ℕ → ℚ) : ℕ → ℚ
  | 0 => 0
  | i + 1 => cumtrapz f g i + (f i + f (i + 1)) / 2 * (g (i + 1) - g i)

/-- The Python branch test of src/app.py line 62,
`(P2 and a2 is not None) or (P2 == 0.0)`: a float is truthy exactly when
it is nonzero. -/
def branchCond (P2 : ℚ) (a2 : Option ℚ) : Bool :=
  (decide (P2 ≠ 0) && a2.isSome) || decide (P2 = 0)

/-- The then-branch reactions (src/app.py lines 63-65): moments about the
left support, `moment_about_left = P*a + (P2*a2 if P2 else 0.0)`,
`R2 = moment_about_left / L`, `R1 = total_load - R2`. -/
def reactionsGeneral (L P a P2 : ℚ) (a2 : Option ℚ) : ℚ × ℚ :=
  let total_load := P + P2
  let moment_about_left := P * a + (if P2 ≠ 0 then P2 * a2.getD 0 else 0)
  let R2 := moment_about_left / L
  (total_load - R2, R2)

/-- The else-branch reactions (src/app.py lines 67-68):
`R1 = P*(L-a)/L`, `R2 = P - R1`. -/
def reactionsAlternate (L P a : ℚ) : ℚ × ℚ :=
  let R1 := P * (L - a) / L
  (R1, P - R1)

/-- Support reactions `(R1, R2)` (src/app.py lines 58-68 and 84):
point-load case chooses between the two equilibrium formulas on the
line-62 truth test; UDL case sets `R1 = R2 = w*L/2`. -/
def solve_reactions (cfg : LoadConfig) : ℚ × ℚ :=
  match cfg.loads with
  | .point P a P2 a2 =>
      if branchCond P2 a2 then reactionsGeneral cfg.L P a P2 a2
      else reactionsAlternate cfg.L P a
  | .udl w => (w * cfg.L / 2, w * cfg.L / 2)

/-- Left reaction `R1` of the run. -/
def R1 (cfg : LoadConfig) : ℚ := (solve_reactions cfg).1

/-- Right reaction `R2` of the run. -/
def R2 (cfg : LoadConfig) : ℚ := (solve_reactions cfg).2

/-- Shear at sample `i` (src/app.py lines 70-76 and 85).  Point-load case:
start from `R1` and apply `V = np.where(x < a, V, V - P)` for each load
(both loads when `P2` is truthy, only the first otherwise).  UDL case:
`V = R1 - w*x`. -/
def shear (cfg : LoadConfig) (r1 : ℚ) (i : ℕ) : ℚ :=
  match cfg.loads with
  | .point P a P2 a2 =>
      if P2 ≠ 0 then
        let v1 := if x cfg i < a then r1 else r1 - P
        if x cfg i < a2.getD 0 then v1 else v1 - P2
      else
        if x cfg i < a then r1 else r1 - P
  | .udl w => r1 - w * x cfg i

/-- The shear sequence `V` of the run. -/
def V (cfg : LoadConfig) : ℕ → ℚ := shear cfg (R1 cfg)

/-- The moment sequence `M = cumtrapz(V, x, initial=0.0)`
(src/app.py lines 80 and 86). -/
def M (cfg : LoadConfig) : ℕ → ℚ := cumtrapz (V cfg) (x cfg)

/-- Unnormalized slope `slope = cumtrapz(M/(E*I), x, initial=0.0)`
(src/app.py line 93). -/
def slope (cfg : LoadConfig) : ℕ → ℚ :=
  cumtrapz (fun i => M cfg i / (cfg.E * cfg.I)) (x cfg)

/-- Unnormalized deflection `y_unnormalized = cumtrapz(slope, x, initial=0.0)`
(src/app.py line 95). -/
def y_unnormalized (cfg : LoadConfig) : ℕ → ℚ :=
  cumtrapz (slope cfg) (x cfg)

/-- Integration constant `C1 = -y_unnormalized[-1] / L` (src/app.py
line 100); the last array element has index `npts - 1`. -/
def C1 (cfg : LoadConfig) : ℚ :=
  -(y_unnormalized cfg (cfg.npts - 1)) / cfg.L

/-- Final deflection `y = y_unnormalized + C1 * x` (src/app.py line 101). -/
def y (cfg : LoadConfig) (i : ℕ) : ℚ :=
  y_unnormalized cfg i + C1 cfg * x cfg i

/-- The deflection array materialised over the `npts` samples. -/
def ys (cfg : LoadConfig) : List ℚ :=
  (List.range cfg.npts).map (y cfg)

/-- `np.min` over a nonempty array (0 on the empty list, unused there). -/
def npMin : List ℚ → ℚ
  | [] => 0
  | [a] => a
  | a :: b :: l => min a (npMin (b :: l))

/-- `np.max` over a nonempty array (0 on the empty list, unused there). -/
def npMax : List ℚ → ℚ
  | [] => 0
  | [a] => a
  | a :: b :: l => max a (npMax (b :: l))

/-- `np.argmax`: the first index achieving the maximum. -/
def argmax : List ℚ → ℕ
  | [] => 0
  | [_] => 0
  | a :: b :: l => if a < npMax (b :: l) then argmax (b :: l) + 1 else 0

/-- Signed extreme deflection
`max_deflection = np.min(y) if np.min(y) < 0 else np.max(y)`
(src/app.py line 104). -/
def max_deflection (cfg : LoadConfig) : ℚ :=
  if npMin (ys cfg) < 0 then npMin (ys cfg) else npMax (ys cfg)

/-- The array `np.abs(y)` (src/app.py lines 105 and 116). -/
def absys (cfg : LoadConfig) : List ℚ :=
  (ys cfg).map (fun v => |v|)

/-- Absolute maximum deflection `max_deflection_abs = np.max(np.abs(y))`
(src/app.py line 105). -/
def max_deflection_abs (cfg : LoadConfig) : ℚ :=
  npMax (absys cfg)

/-- `imax = np.argmax(np.abs(y))` (src/app.py line 116); the reported
location of the maximum deflection is `x[imax]`. -/
def imax (cfg : LoadConfig) : ℕ :=
  argmax (absys cfg)

/-- The single error kind of the spec's error taxonomy. -/
inductive BuildError where
  | invalidParameter
deriving DecidableEq

/-- Validity of the load set for span `[0, L]`: magnitudes nonnegative and
point-load positions inside `[0, L]` (for the optional second load, only
when it is present). -/
def loadsOk (L : ℚ) : LoadCase → Bool
  | .point P a P2 a2 =>
      decide (0 ≤ P) && decide (0 ≤ P2) && decide (0 ≤ a) && decide (a ≤ L) &&
        (match a2 with
         | some b => decide (0 ≤ b) && decide (b ≤ L)
         | none => true)
  | .udl w => decide (0 ≤ w)

/-- Modelled from the spec: the construction operation
`build(geometry, material, loads) -> LoadConfiguration` of the
LoadConfiguration component is not present under src (the repository
enforces parameter validity only through UI widget bounds).  Per the spec it
fails with `InvalidParameter` when L ≤ 0, E ≤ 0, I ≤ 0, N < 2, any load
magnitude is negative, or any point-load position lies outside [0, L], and
otherwise purely constructs the value. -/
def build (L E I : ℚ) (npts : ℕ) (loads : LoadCase) :
    Except BuildError LoadConfig :=
  if 0 < L ∧ 0 < E ∧ 0 < I ∧ 2 ≤ npts ∧ loadsOk L loads = true then
    .ok { L := L, E := E, I := I, npts := npts, loads := loads }
  else
    .error .invalidParameter

/-! ### Basic lemmas about the grid and the integrator -/

lemma x_zero (cfg : LoadConfig) : x cfg 0 = 0 := by
  simp [x]

lemma x_nonneg (cfg : LoadConfig) (hL : 0 < cfg.L) (i : ℕ) : 0 ≤ x cfg i := by
  unfold x
  positivity

lemma x_last (cfg : LoadConfig) (hN : 2 ≤ cfg.npts) :
    x cfg (cfg.npts - 1) = cfg.L := by
  have h1 : ((cfg.npts - 1 : ℕ) : ℚ) ≠ 0 := Nat.cast_ne_zero.mpr (by omega)
  rw [x, mul_div_assoc, div_self h1, mul_one]

lemma cumtrapz_zero_fn (f g : ℕ → ℚ) (hf : ∀ i, f i = 0) :
    ∀ n, cumtrapz f g n = 0 := by
  intro n
  induction n with
  | zero => rfl
  | succ n ih => rw [cumtrapz, ih, hf, hf]; ring

lemma cumtrapz_congr (f f' g : ℕ → ℚ) (h : ∀ i, f i = f' i) :
    ∀ n, cumtrapz f g n = cumtrapz f' g n := by
  intro n
  induction n with
  | zero => rfl
  | succ n ih => rw [cumtrapz, cumtrapz, ih, h, h]

lemma cumtrapz_eq_sum (f g : ℕ → ℚ) (n : ℕ) :
    cumtrapz f g n =
      ∑ j ∈ Finset.range n, (f j + f (j + 1)) / 2 * (g (j + 1) - g j) := by
  induction n with
  | zero => rfl
  | succ n ih => rw [cumtrapz, ih, Finset.sum_range_succ]

/-- Trapezoidal integration is exact on sequences affine in the grid:
integrating `i ↦ c - d * g i` against `g` from `g 0 = 0` gives
`c * g n - d * (g n)^2 / 2` at every sample. -/
lemma cumtrapz_affine (c d : ℚ) (g : ℕ → ℚ) (h0 : g 0 = 0) :
    ∀ n, cumtrapz (fun i => c - d * g i) g n = c * g n - d * (g n) ^ 2 / 2 := by
  intro n
  induction n with
  | zero => simp [cumtrapz, h0]
  | succ n ih => rw [cumtrapz, ih]; ring

/-! ### C1: boundary conditions hold exactly -/

/-- C1: for every run with `L > 0` and `npts ≥ 2` — any load case — the
final deflection is `y i = y_unnormalized i + C1 * x i` with
`C1 = -y_unnormalized (npts-1) / L`, and it vanishes exactly at both
ends: `y 0 = 0` and `y (npts-1) = 0`. -/
theorem c1_deflection_boundary_zero (cfg : LoadConfig)
    (hL : 0 < cfg.L) (hN : 2 ≤ cfg.npts) :
    (∀ i, y cfg i = y_unnormalized cfg i + C1 cfg * x cfg i) ∧
      C1 cfg = -(y_unnormalized cfg (cfg.npts - 1)) / cfg.L ∧
      y cfg 0 = 0 ∧ y cfg (cfg.npts - 1) = 0 := by
  refine ⟨fun i => rfl, rfl, ?_, ?_⟩
  · have h0 : y_unnormalized cfg 0 = 0 := rfl
    rw [y, h0, x_zero, mul_zero, add_zero]
  · rw [y, x_last cfg hN, C1]
    field_simp

/-- Witness for C1 at the concrete run `L = 2`, `E = 1`, `I = 1`,
`npts = 3`, UDL of intensity `1`. -/
theorem c1_deflection_boundary_zero_witness :
    y { L := 2, E := 1, I := 1, npts := 3, loads := .udl 1 } 0 = 0 ∧
      y { L := 2, E := 1, I := 1, npts := 3, loads := .udl 1 } 2 = 0 :=
  ⟨(c1_deflection_boundary_zero _ (by norm_num) (by norm_num)).2.2.1,
   (c1_deflection_boundary_zero _ (by norm_num) (by norm_num)).2.2.2⟩

/-! ### C2: point-load reactions satisfy equilibrium -/

lemma branchCond_true (P2 : ℚ) (a2 : Option ℚ) (hr : P2 ≠ 0 → a2.isSome) :
    branchCond P2 a2 = true := by
  by_cases hp : P2 = 0
  · simp [branchCond, hp]
  · simp [branchCond, hp, hr hp]

lemma reactionsGeneral_R2 (L P a P2 : ℚ) (a2 : Option ℚ) :
    (reactionsGeneral L P a P2 a2).2 = (P * a + P2 * a2.getD 0) / L := by
  unfold reactionsGeneral
  by_cases hp : P2 = 0
  · simp [hp]
  · simp [hp]

/-- C2: in the point-load case (with the reachability condition that `a2`
is present whenever `P2 ≠ 0`, and `L > 0`), the reactions are
`R2 = (P·a + P2·a2)/L` and `R1 = (P + P2) − R2`; hence `R1 + R2` is the
total load and `R2·L` is the moment of the loads about the left support. -/
theorem c2_point_reactions (Lv Ev Iv : ℚ) (n : ℕ) (P a P2 : ℚ)
    (a2 : Option ℚ) (hr : P2 ≠ 0 → a2.isSome) (hL : 0 < Lv) :
    R2 ⟨Lv, Ev, Iv, n, .point P a P2 a2⟩ = (P * a + P2 * a2.getD 0) / Lv ∧
      R1 ⟨Lv, Ev, Iv, n, .point P a P2 a2⟩ =
        (P + P2) - R2 ⟨Lv, Ev, Iv, n, .point P a P2 a2⟩ ∧
      R1 ⟨Lv, Ev, Iv, n, .point P a P2 a2⟩ +
        R2 ⟨Lv, Ev, Iv, n, .point P a P2 a2⟩ = P + P2 ∧
      R2 ⟨Lv, Ev, Iv, n, .point P a P2 a2⟩ * Lv = P * a + P2 * a2.getD 0 := by
  have hb := branchCond_true P2 a2 hr
  have hR2 : R2 ⟨Lv, Ev, Iv, n, .point P a P2 a2⟩ =
      (P * a + P2 * a2.getD 0) / Lv := by
    rw [R2, solve_reactions]
    simp only [hb, if_true]
    exact reactionsGeneral_R2 Lv P a P2 a2
  have hR1 : R1 ⟨Lv, Ev, Iv, n, .point P a P2 a2⟩ =
      (P + P2) - R2 ⟨Lv, Ev, Iv, n, .point P a P2 a2⟩ := by
    rw [R1, R2, solve_reactions]
    simp only [hb, if_true]
    rfl
  refine ⟨hR2, hR1, by rw [hR1]; ring, ?_⟩
  rw [hR2, div_mul_cancel₀ _ hL.ne']

/-- Witness for C2 at `L = 6`, one point load `P = 4` at `a = 2`. -/
theorem c2_point_reactions_witness :
    R2 ⟨6, 1, 1, 3, .point 4 2 0 none⟩ =
        (4 * 2 + 0 * (Option.getD none 0)) / 6 ∧
      R1 ⟨6, 1, 1, 3, .point 4 2 0 none⟩ =
        (4 + 0) - R2 ⟨6, 1, 1, 3, .point 4 2 0 none⟩ ∧
      R1 ⟨6, 1, 1, 3, .point 4 2 0 none⟩ +
        R2 ⟨6, 1, 1, 3, .point 4 2 0 none⟩ = 4 + 0 ∧
      R2 ⟨6, 1, 1, 3, .point 4 2 0 none⟩ * 6 =
        4 * 2 + 0 * (Option.getD none 0) :=
  c2_point_reactions 6 1 1 3 4 2 0 none (by decide) (by norm_num)

/-! ### C9: the else branch of the reaction solve is dead code -/

/-- C9: under the program's reachability invariant (`a2 = None` only when
`P2 = 0`), the line-62 branch condition always holds, so `solve_reactions`
always takes the general moment-balance branch; and whenever `P2 = 0` the
alternate single-load formula of the else branch agrees with the general
branch (for `L > 0`). -/
theorem c9_else_branch_dead (L P a P2 : ℚ) (a2 : Option ℚ)
    (hL : 0 < L) (hr : a2 = none → P2 = 0) :
    branchCond P2 a2 = true ∧
      (P2 = 0 → reactionsAlternate L P a = reactionsGeneral L P a P2 a2) ∧
      ∀ Ev Iv : ℚ, ∀ n : ℕ,
        solve_reactions ⟨L, Ev, Iv, n, .point P a P2 a2⟩ =
          reactionsGeneral L P a P2 a2 := by
  have hr' : P2 ≠ 0 → a2.isSome := by
    intro hp
    rcases a2 with _ | b
    · exact absurd (hr rfl) hp
    · rfl
  have hb := branchCond_true P2 a2 hr'
  refine ⟨hb, ?_, ?_⟩
  · intro hp
    subst hp
    unfold reactionsAlternate reactionsGeneral
    simp only [ne_eq, not_true_eq_false, if_false]
    rw [Prod.ext_iff]
    constructor
    · show P * (L - a) / L = P + 0 - (P * a + 0) / L
      field_simp
      ring
    · show P - P * (L - a) / L = (P * a + 0) / L
      field_simp
      ring
  · intro Ev Iv n
    rw [solve_reactions]
    simp only [hb, if_true]

/-- Witness for C9 at `L = 6`, `P = 4`, `a = 2`, no second load. -/
theorem c9_else_branch_dead_witness :
    branchCond 0 (none : Option ℚ) = true ∧
      ((0 : ℚ) = 0 → reactionsAlternate 6 4 2 = reactionsGeneral 6 4 2 0 none) ∧
      ∀ Ev Iv : ℚ, ∀ n : ℕ,
        solve_reactions ⟨6, Ev, Iv, n, .point 4 2 0 none⟩ =
          reactionsGeneral 6 4 2 0 none :=
  c9_else_branch_dead 6 4 2 0 none (by norm_num) (fun _ => rfl)

/-! ### C4: point-load shear is closed on the right -/

/-- C4: in the point-load case the shear at each sample is `R1` minus the
sum of the point loads whose position is `≤ xᵢ` — a sample exactly at a
load position already reflects that load (when `P2 = 0` the second
summand vanishes identically, matching the single-`np.where` branch). -/
theorem c4_point_shear (Lv Ev Iv : ℚ) (n : ℕ) (P a P2 : ℚ)
    (a2 : Option ℚ) (i : ℕ) :
    V ⟨Lv, Ev, Iv, n, .point P a P2 a2⟩ i =
      R1 ⟨Lv, Ev, Iv, n, .point P a P2 a2⟩ -
        ((if a ≤ x ⟨Lv, Ev, Iv, n, .point P a P2 a2⟩ i then P else 0) +
         (if a2.getD 0 ≤ x ⟨Lv, Ev, Iv, n, .point P a P2 a2⟩ i
          then P2 else 0)) := by
  dsimp only [V, shear]
  by_cases hp : P2 = 0
  · subst hp
    rw [if_neg (by simp : ¬((0 : ℚ) ≠ 0))]
    split_ifs <;> linarith
  · rw [if_pos hp]
    split_ifs <;> linarith

/-! ### C5: UDL reactions and shear ramp -/

/-- C5: in the distributed-load case the reactions are
`R1 = R2 = w·L/2` exactly, the shear is the linear ramp `R1 − w·xᵢ`, and
(for `npts ≥ 2`) the shear at the last sample equals `−R2` exactly. -/
theorem c5_udl_reactions_shear (Lv Ev Iv w : ℚ) (n : ℕ) (hN : 2 ≤ n) :
    R1 ⟨Lv, Ev, Iv, n, .udl w⟩ = w * Lv / 2 ∧
      R2 ⟨Lv, Ev, Iv, n, .udl w⟩ = w * Lv / 2 ∧
      (∀ i, V ⟨Lv, Ev, Iv, n, .udl w⟩ i =
        R1 ⟨Lv, Ev, Iv, n, .udl w⟩ - w * x ⟨Lv, Ev, Iv, n, .udl w⟩ i) ∧
      V ⟨Lv, Ev, Iv, n, .udl w⟩ (n - 1) = -(R2 ⟨Lv, Ev, Iv, n, .udl w⟩) := by
  refine ⟨rfl, rfl, fun i => rfl, ?_⟩
  have hx : x ⟨Lv, Ev, Iv, n, .udl w⟩ (n - 1) = Lv := x_last _ hN
  show R1 ⟨Lv, Ev, Iv, n, .udl w⟩ - w * x ⟨Lv, Ev, Iv, n, .udl w⟩ (n - 1) = _
  rw [hx]
  show w * Lv / 2 - w * Lv = -(w * Lv / 2)
  ring

/-- Witness for C5 at `L = 2`, `w = 3`, `npts = 3`. -/
theorem c5_udl_reactions_shear_witness :
    R1 ⟨2, 1, 1, 3, .udl 3⟩ = 3 * 2 / 2 ∧
      R2 ⟨2, 1, 1, 3, .udl 3⟩ = 3 * 2 / 2 ∧
      (∀ i, V ⟨2, 1, 1, 3, .udl 3⟩ i =
        R1 ⟨2, 1, 1, 3, .udl 3⟩ - 3 * x ⟨2, 1, 1, 3, .udl 3⟩ i) ∧
      V ⟨2, 1, 1, 3, .udl 3⟩ (3 - 1) = -(R2 ⟨2, 1, 1, 3, .udl 3⟩) :=
  c5_udl_reactions_shear 2 1 1 3 3 (by norm_num)

/-! ### C6: moment is the cumulative trapezoidal integral of shear -/

/-- C6: for every load case, `M 0 = 0`, the moment satisfies the
trapezoidal recurrence
`M (i+1) = M i + (V i + V (i+1))/2 · (x (i+1) − x i)`, and in closed form
each `M i` is the cumulative trapezoidal sum of `V` over the grid. -/
theorem c6_moment_cumtrapz (cfg : LoadConfig) :
    M cfg 0 = 0 ∧
      (∀ i, M cfg (i + 1) =
        M cfg i + (V cfg i + V cfg (i + 1)) / 2 * (x cfg (i + 1) - x cfg i)) ∧
      ∀ i, M cfg i =
        ∑ j ∈ Finset.range i,
          (V cfg j + V cfg (j + 1)) / 2 * (x cfg (j + 1) - x cfg j) :=
  ⟨rfl, fun _ => rfl, fun i => cumtrapz_eq_sum (V cfg) (x cfg) i⟩

/-! ### C10: the trapezoidal rule is exact on the UDL shear -/

/-- C10: in the distributed-load case the shear is affine in `x`, so the
cumulative trapezoidal rule integrates it exactly:
`M i = R1·xᵢ − w·xᵢ²/2` at every sample, for every resolution. -/
theorem c10_udl_moment_exact (Lv Ev Iv w : ℚ) (n : ℕ) (i : ℕ) :
    M ⟨Lv, Ev, Iv, n, .udl w⟩ i =
      R1 ⟨Lv, Ev, Iv, n, .udl w⟩ * x ⟨Lv, Ev, Iv, n, .udl w⟩ i -
        w * (x ⟨Lv, Ev, Iv, n, .udl w⟩ i) ^ 2 / 2 := by
  have hV : ∀ j, V ⟨Lv, Ev, Iv, n, .udl w⟩ j =
      R1 ⟨Lv, Ev, Iv, n, .udl w⟩ - w * x ⟨Lv, Ev, Iv, n, .udl w⟩ j :=
    fun j => rfl
  rw [M, cumtrapz_congr _ _ _ hV i]
  exact cumtrapz_affine _ _ _ (x_zero _) i

/-! ### C8: point load directly over the left support -/

/-- C8: for a single point load at `a = 0` (over the left support,
`P2 = 0`), the pipeline yields `R1 = P`, `R2 = 0`, an identically zero
moment sequence and an identically zero final deflection — exact zeros. -/
theorem c8_load_at_left_support (Lv Ev Iv P : ℚ) (n : ℕ) (a2 : Option ℚ)
    (hL : 0 < Lv) :
    R1 ⟨Lv, Ev, Iv, n, .point P 0 0 a2⟩ = P ∧
      R2 ⟨Lv, Ev, Iv, n, .point P 0 0 a2⟩ = 0 ∧
      (∀ i, M ⟨Lv, Ev, Iv, n, .point P 0 0 a2⟩ i = 0) ∧
      (∀ i, y ⟨Lv, Ev, Iv, n, .point P 0 0 a2⟩ i = 0) := by
  have hb : branchCond 0 a2 = true := by simp [branchCond]
  have hR1 : R1 ⟨Lv, Ev, Iv, n, .point P 0 0 a2⟩ = P := by
    rw [R1, solve_reactions]
    simp only [hb, if_true]
    unfold reactionsGeneral
    simp
  have hV : ∀ i, V ⟨Lv, Ev, Iv, n, .point P 0 0 a2⟩ i = 0 := by
    intro i
    dsimp only [V, shear]
    rw [if_neg (by simp : ¬((0 : ℚ) ≠ 0)),
      if_neg (not_lt.mpr (x_nonneg _ hL i)), hR1, sub_self]
  have hM : ∀ i, M ⟨Lv, Ev, Iv, n, .point P 0 0 a2⟩ i = 0 := by
    intro i
    rw [M]
    exact cumtrapz_zero_fn _ _ hV i
  have hslope : ∀ i, slope ⟨Lv, Ev, Iv, n, .point P 0 0 a2⟩ i = 0 := by
    intro i
    rw [slope]
    exact cumtrapz_zero_fn _ _ (fun j => by rw [hM j, zero_div]) i
  have hyun : ∀ i, y_unnormalized ⟨Lv, Ev, Iv, n, .point P 0 0 a2⟩ i = 0 := by
    intro i
    rw [y_unnormalized]
    exact cumtrapz_zero_fn _ _ hslope i
  have hC1 : C1 ⟨Lv, Ev, Iv, n, .point P 0 0 a2⟩ = 0 := by
    rw [C1, hyun, neg_zero, zero_div]
  refine ⟨hR1, ?_, hM, fun i => ?_⟩
  · rw [R2, solve_reactions]
    simp only [hb, if_true]
    unfold reactionsGeneral
    simp
  · rw [y, hyun, hC1, zero_mul, add_zero]

/-- Witness for C8 at `L = 2`, `P = 5`, `npts = 3`. -/
theorem c8_load_at_left_support_witness :
    R1 ⟨2, 1, 1, 3, .point 5 0 0 none⟩ = 5 ∧
      R2 ⟨2, 1, 1, 3, .point 5 0 0 none⟩ = 0 ∧
      (∀ i, M ⟨2, 1, 1, 3, .point 5 0 0 none⟩ i = 0) ∧
      (∀ i, y ⟨2, 1, 1, 3, .point 5 0 0 none⟩ i = 0) :=
  c8_load_at_left_support 2 1 1 5 3 none (by norm_num)

/-! ### C3: construction-time validation -/

lemma config_valid_iff (L E I : ℚ) (n : ℕ) (loads : LoadCase) :
    (0 < L ∧ 0 < E ∧ 0 < I ∧ 2 ≤ n ∧ loadsOk L loads = true) ↔
      ¬(L ≤ 0 ∨ E ≤ 0 ∨ I ≤ 0 ∨ n < 2 ∨
        (∃ P a P2 a2, loads = .point P a P2 a2 ∧
          (P < 0 ∨ P2 < 0 ∨ a < 0 ∨ L < a ∨
            ∃ b, a2 = some b ∧ (b < 0 ∨ L < b))) ∨
        (∃ w, loads = .udl w ∧ w < 0)) := by
  cases loads with
  | point P a P2 a2 =>
      cases a2 with
      | none =>
          simp only [loadsOk, Bool.and_eq_true, Bool.and_true,
            decide_eq_true_eq, and_assoc, LoadCase.point.injEq, not_or,
            not_lt, not_le, not_exists]
          constructor
          · rintro ⟨h1, h2, h3, h4, hP, hP2, ha, haL⟩
            refine ⟨by linarith, by linarith, by linarith, by omega, ?_, ?_⟩
            · rintro P' a' P2' a2' ⟨rfl, rfl, rfl, rfl, h⟩
              rcases h with h | h | h | h | ⟨b, hb, _⟩ <;>
                first | linarith | cases hb
            · rintro w ⟨h, _⟩
              cases h
          · rintro ⟨h1, h2, h3, h4, h5, -⟩
            refine ⟨by linarith, by linarith, by linarith, by omega,
              ?_, ?_, ?_, ?_⟩ <;> by_contra hc <;>
              refine h5 P a P2 none ⟨rfl, rfl, rfl, rfl, ?_⟩ <;>
              push_neg at hc
            · exact Or.inl hc
            · exact Or.inr (Or.inl hc)
            · exact Or.inr (Or.inr (Or.inl hc))
            · exact Or.inr (Or.inr (Or.inr (Or.inl hc)))
      | some b =>
          simp only [loadsOk, Bool.and_eq_true, Bool.and_true,
            decide_eq_true_eq, and_assoc, LoadCase.point.injEq, not_or,
            not_lt, not_le, not_exists]
          constructor
          · rintro ⟨h1, h2, h3, h4, hP, hP2, ha, haL, hb0, hbL⟩
            refine ⟨by linarith, by linarith, by linarith, by omega, ?_, ?_⟩
            · rintro P' a' P2' a2' ⟨rfl, rfl, rfl, rfl, h⟩
              rcases h with h | h | h | h | ⟨b', hb', h | h⟩ <;>
                first | linarith | (cases hb'; linarith)
            · rintro w ⟨h, _⟩
              cases h
          · rintro ⟨h1, h2, h3, h4, h5, -⟩
            refine ⟨by linarith, by linarith, by linarith, by omega,
              ?_, ?_, ?_, ?_, ?_, ?_⟩ <;> by_contra hc <;>
              refine h5 P a P2 (some b) ⟨rfl, rfl, rfl, rfl, ?_⟩ <;>
              push_neg at hc
            · exact Or.inl hc
            · exact Or.inr (Or.inl hc)
            · exact Or.inr (Or.inr (Or.inl hc))
            · exact Or.inr (Or.inr (Or.inr (Or.inl hc)))
            · exact Or.inr (Or.inr (Or.inr (Or.inr ⟨b, rfl, Or.inl hc⟩)))
            · exact Or.inr (Or.inr (Or.inr (Or.inr ⟨b, rfl, Or.inr hc⟩)))
  | udl w =>
      simp only [loadsOk, decide_eq_true_eq, not_or, not_lt, not_le,
        not_exists]
      constructor
      · rintro ⟨h1, h2, h3, h4, hw⟩
        refine ⟨by linarith, by linarith, by linarith, by omega, ?_, ?_⟩
        · rintro P' a' P2' a2' ⟨h, -⟩
          cases h
        · rintro w' ⟨h, hw'⟩
          cases h
          linarith
      · rintro ⟨h1, h2, h3, h4, -, h6⟩
        refine ⟨by linarith, by linarith, by linarith, by omega, ?_⟩
        by_contra hc
        push_neg at hc
        exact h6 w ⟨rfl, hc⟩


/-- C3: `build` fails with `InvalidParameter` exactly when `L ≤ 0`,
`E ≤ 0`, `I ≤ 0`, `N < 2`, some load magnitude is negative, or some
point-load position lies outside `[0, L]`; otherwise it purely constructs
the configuration (downstream operations are total functions with no
failure path). -/
theorem c3_build_invalid_iff (L E I : ℚ) (n : ℕ) (loads : LoadCase) :
    build L E I n loads = .error .invalidParameter ↔
      (L ≤ 0 ∨ E ≤ 0 ∨ I ≤ 0 ∨ n < 2 ∨
        (∃ P a P2 a2, loads = .point P a P2 a2 ∧
          (P < 0 ∨ P2 < 0 ∨ a < 0 ∨ L < a ∨
            ∃ b, a2 = some b ∧ (b < 0 ∨ L < b))) ∨
        (∃ w, loads = .udl w ∧ w < 0)) := by
  by_cases hc : 0 < L ∧ 0 < E ∧ 0 < I ∧ 2 ≤ n ∧ loadsOk L loads = true
  · rw [build, if_pos hc]
    constructor
    · intro h
      cases h
    · intro h
      exact absurd h ((config_valid_iff L E I n loads).mp hc)
  · rw [build, if_neg hc]
    constructor
    · intro _
      by_contra h
      exact hc ((config_valid_iff L E I n loads).mpr h)
    · intro _
      rfl

/-! ### List lemmas for the extrema scans -/

lemma npMax_mem : ∀ l : List ℚ, l ≠ [] → npMax l ∈ l
  | [], h => absurd rfl h
  | [a], _ => by simp [npMax]
  | a :: b :: l, _ => by
      rcases le_total a (npMax (b :: l)) with h | h
      · rw [npMax, max_eq_right h]
        exact List.mem_cons_of_mem a (npMax_mem (b :: l) (by simp))
      · rw [npMax, max_eq_left h]
        exact List.mem_cons_self a (b :: l)

lemma le_npMax : ∀ (l : List ℚ) (v : ℚ), v ∈ l → v ≤ npMax l
  | [], v, h => by cases h
  | [a], v, h => by
      rcases List.mem_singleton.mp h with rfl
      exact le_of_eq rfl
  | a :: b :: l, v, h => by
      rcases List.mem_cons.mp h with rfl | h
      · exact le_max_left _ _
      · exact (le_npMax (b :: l) v h).trans (le_max_right _ _)

lemma npMin_mem : ∀ l : List ℚ, l ≠ [] → npMin l ∈ l
  | [], h => absurd rfl h
  | [a], _ => by simp [npMin]
  | a :: b :: l, _ => by
      rcases le_total a (npMin (b :: l)) with h | h
      · rw [npMin, min_eq_left h]
        exact List.mem_cons_self a (b :: l)
      · rw [npMin, min_eq_right h]
        exact List.mem_cons_of_mem a (npMin_mem (b :: l) (by simp))

lemma npMin_le : ∀ (l : List ℚ) (v : ℚ), v ∈ l → npMin l ≤ v
  | [], v, h => by cases h
  | [a], v, h => by
      rcases List.mem_singleton.mp h with rfl
      exact le_of_eq rfl
  | a :: b :: l, v, h => by
      rcases List.mem_cons.mp h with rfl | h
      · exact min_le_left _ _
      · exact (min_le_right _ _).trans (npMin_le (b :: l) v h)

lemma argmax_spec : ∀ l : List ℚ, l ≠ [] →
    argmax l < l.length ∧ l.getD (argmax l) 0 = npMax l ∧
      ∀ j < argmax l, l.getD j 0 < npMax l
  | [], h => absurd rfl h
  | [a], _ => by
      refine ⟨by simp [argmax], by simp [argmax, npMax], ?_⟩
      intro j hj
      simp [argmax] at hj
  | a :: b :: l, _ => by
      obtain ⟨ih1, ih2, ih3⟩ := argmax_spec (b :: l) (by simp)
      by_cases h : a < npMax (b :: l)
      · rw [argmax, if_pos h]
        refine ⟨by simpa using ih1, ?_, ?_⟩
        · rw [npMax, max_eq_right h.le]
          simpa using ih2
        · intro j hj
          rw [npMax, max_eq_right h.le]
          rcases j with _ | j
          · simpa using h
          · simpa using ih3 j (by omega)
      · rw [argmax, if_neg h]
        push_neg at h
        refine ⟨by simp, ?_, ?_⟩
        · simp [npMax, max_eq_left h]
        · intro j hj
          omega

lemma getD_map_range (f : ℕ → ℚ) (n i : ℕ) (h : i < n) :
    ((List.range n).map f).getD i 0 = f i := by
  rw [List.getD_eq_getElem?_getD]
  simp [List.getElem?_map, List.getElem?_range, h]

/-! ### C7: extrema scans over the deflection curve -/

/-- C7: the dominant-sign extreme `max_deflection` is the least value of
`y` when some sample is negative and the greatest value otherwise;
`max_deflection_abs` is the maximum of `|y|` over the samples; and `imax`
is the first index achieving that absolute maximum (every earlier index is
strictly smaller in absolute value). -/
theorem c7_extrema (cfg : LoadConfig) (hN : 1 ≤ cfg.npts) :
    ((∃ i < cfg.npts, y cfg i < 0) →
        (∃ i < cfg.npts, max_deflection cfg = y cfg i) ∧
          ∀ i < cfg.npts, max_deflection cfg ≤ y cfg i) ∧
      ((∀ i < cfg.npts, 0 ≤ y cfg i) →
        (∃ i < cfg.npts, max_deflection cfg = y cfg i) ∧
          ∀ i < cfg.npts, y cfg i ≤ max_deflection cfg) ∧
      imax cfg < cfg.npts ∧
      max_deflection_abs cfg = |y cfg (imax cfg)| ∧
      (∀ i < cfg.npts, |y cfg i| ≤ max_deflection_abs cfg) ∧
      (∀ j < imax cfg, |y cfg j| < max_deflection_abs cfg) := by
  have hlen : (ys cfg).length = cfg.npts := by simp [ys]
  have hne : ys cfg ≠ [] := by
    intro h
    rw [h] at hlen
    simp at hlen
    omega
  have hmem : ∀ i < cfg.npts, y cfg i ∈ ys cfg := by
    intro i hi
    exact List.mem_map_of_mem (y cfg) (List.mem_range.mpr hi)
  have hmem' : ∀ v ∈ ys cfg, ∃ i < cfg.npts, y cfg i = v := by
    intro v hv
    obtain ⟨i, hi, hyi⟩ := List.mem_map.mp hv
    exact ⟨i, List.mem_range.mp hi, hyi⟩
  have habs : absys cfg = (List.range cfg.npts).map (fun i => |y cfg i|) := by
    simp [absys, ys, List.map_map]
  have habslen : (absys cfg).length = cfg.npts := by
    rw [habs]
    simp
  have habsne : absys cfg ≠ [] := by
    intro h
    rw [h] at habslen
    simp at habslen
    omega
  have habsmem : ∀ i < cfg.npts, |y cfg i| ∈ absys cfg := by
    intro i hi
    rw [habs]
    exact List.mem_map_of_mem _ (List.mem_range.mpr hi)
  obtain ⟨ha1, ha2, ha3⟩ := argmax_spec (absys cfg) habsne
  have himax' : argmax (absys cfg) < cfg.npts := by
    rw [← habslen]
    exact ha1
  have himax : imax cfg < cfg.npts := by
    rw [imax]
    exact himax'
  have hgetD : ∀ i < cfg.npts, (absys cfg).getD i 0 = |y cfg i| := by
    intro i hi
    rw [habs]
    exact getD_map_range _ _ _ hi
  have habsmax : max_deflection_abs cfg = |y cfg (imax cfg)| := by
    rw [max_deflection_abs, ← ha2]
    exact hgetD _ himax'
  refine ⟨?_, ?_, himax, habsmax, ?_, ?_⟩
  · intro ⟨i, hi, hyi⟩
    have hmin : npMin (ys cfg) < 0 :=
      lt_of_le_of_lt (npMin_le _ _ (hmem i hi)) hyi
    rw [max_deflection, if_pos hmin]
    obtain ⟨j, hj, hyj⟩ := hmem' _ (npMin_mem _ hne)
    exact ⟨⟨j, hj, hyj.symm⟩, fun k hk => npMin_le _ _ (hmem k hk)⟩
  · intro hpos
    have hmin : ¬ npMin (ys cfg) < 0 := by
      obtain ⟨j, hj, hyj⟩ := hmem' _ (npMin_mem _ hne)
      rw [← hyj]
      exact not_lt.mpr (hpos j hj)
    rw [max_deflection, if_neg hmin]
    obtain ⟨j, hj, hyj⟩ := hmem' _ (npMax_mem _ hne)
    exact ⟨⟨j, hj, hyj.symm⟩, fun k hk => le_npMax _ _ (hmem k hk)⟩
  · intro i hi
    rw [max_deflection_abs]
    exact le_npMax _ _ (habsmem i hi)
  · intro j hj
    rw [max_deflection_abs, ← hgetD j (lt_trans hj himax)]
    exact ha3 j hj

/-- Witness for C7 at the run `L = 2`, `E = 1`, `I = 1`, `npts = 3`,
UDL of intensity `1`. -/
theorem c7_extrema_witness :
    ((∃ i < 3, y ⟨2, 1, 1, 3, .udl 1⟩ i < 0) →
        (∃ i < 3, max_deflection ⟨2, 1, 1, 3, .udl 1⟩ =
            y ⟨2, 1, 1, 3, .udl 1⟩ i) ∧
          ∀ i < 3, max_deflection ⟨2, 1, 1, 3, .udl 1⟩ ≤
            y ⟨2, 1, 1, 3, .udl 1⟩ i) ∧
      ((∀ i < 3, 0 ≤ y ⟨2, 1, 1, 3, .udl 1⟩ i) →
        (∃ i < 3, max_deflection ⟨2, 1, 1, 3, .udl 1⟩ =
            y ⟨2, 1, 1, 3, .udl 1⟩ i) ∧
          ∀ i < 3, y ⟨2, 1, 1, 3, .udl 1⟩ i ≤
            max_deflection ⟨2, 1, 1, 3, .udl 1⟩) ∧
      imax ⟨2, 1, 1, 3, .udl 1⟩ < 3 ∧
      max_deflection_abs ⟨2, 1, 1, 3, .udl 1⟩ =
        |y ⟨2, 1, 1, 3, .udl 1⟩ (imax ⟨2, 1, 1, 3, .udl 1⟩)| ∧
      (∀ i < 3, |y ⟨2, 1, 1, 3, .udl 1⟩ i| ≤
        max_deflection_abs ⟨2, 1, 1, 3, .udl 1⟩) ∧
      (∀ j < imax ⟨2, 1, 1, 3, .udl 1⟩, |y ⟨2, 1, 1, 3, .udl 1⟩ j| <
        max_deflection_abs ⟨2, 1, 1, 3, .udl 1⟩) :=
  c7_extrema ⟨2, 1, 1, 3, .udl 1⟩ (by norm_num)

end Beam
